import Mathlib

/-!
Verification of the item layer of a fuzzy-search tool (src/src/item.rs):
the per-line `Item` representation and its text-derivation matrix, the
`MatchedItem`/`Rank` ordering model, and the `ItemPool` with its
consumption cursor.

The ANSI parser, the field/delimiter parser and the spinlock are external
collaborators of this file (crate::ansi, crate::field, crate::spinlock);
they are modelled from the spec as opaque data and as function parameters,
so every theorem below quantifies over all collaborators satisfying the
spec's interface shapes.  The lock only serializes the operations, so the
pool is modelled as a sequential state machine over its quiescent states.
-/

/-- Modelled from the spec: `AnsiString` (crate::ansi), the derived
representation of a line, exposing a stripped plain-text view.  The style
spans are out of scope for this core (no operation here inspects them). -/
structure AnsiString where
  stripped : String
deriving DecidableEq, Repr

/-- Corresponds to `AnsiString::new_string`: wrap a plain string. -/
def AnsiString.new_string (s : String) : AnsiString := ⟨s⟩

/-- Corresponds to `AnsiString::new_empty`: the empty derived text. -/
def AnsiString.new_empty : AnsiString := ⟨""⟩

/-- Corresponds to `AnsiString::get_stripped`. -/
def AnsiString.get_stripped (a : AnsiString) : String := a.stripped

/-- Corresponds to `AnsiString::into_inner`. -/
def AnsiString.into_inner (a : AnsiString) : String := a.stripped

/-- Modelled from the spec: the delimiter pattern (a compiled regular
expression), opaque to this core — it is only passed through to the
field parser. -/
structure Regex where
  pattern : String
deriving DecidableEq, Repr

/-- Modelled from the spec: one field-range specification for the
delimiter-based field parser (crate::field).  Its internal structure is
out of scope: this core only tests whether the list of specifications is
empty and otherwise passes it through to the parser. -/
structure FieldRange where
deriving DecidableEq, Repr

/-- Modelled from the spec: the external collaborators consumed by `Item`.
`parse_ansi` is the ANSI interpreter of a freshly-defaulted `ANSIParser`
(a pure function, since `Item` always uses a fresh default parser);
`parse_transform_fields` extracts a substring of a line, and
`parse_matching_fields` a list of byte ranges, given a delimiter pattern
and field-range specifications. -/
structure Collab where
  parse_ansi : String → AnsiString
  parse_transform_fields : Regex → String → List FieldRange → String
  parse_matching_fields : Regex → String → List FieldRange → List (Nat × Nat)

/-- The `Item` struct: one input line with its derived representations.
`index` is the (run, position) provenance pair; `orig_text` the original
line; `text` the derived representation (only used when a transform or
ANSI is active); byte offsets are `Nat` for Rust's `usize`. -/
structure Item where
  index : Nat × Nat
  orig_text : String
  text : AnsiString
  matching_ranges : List (Nat × Nat)
  using_transform_fields : Bool
  ansi_enabled : Bool
deriving DecidableEq, Repr

/-- Corresponds to `Item::get_text`: the canonical matchable text — the
original line when neither a transform nor ANSI is active, otherwise the
stripped form of the derived representation. -/
def Item.get_text (it : Item) : String :=
  if !it.using_transform_fields && !it.ansi_enabled then it.orig_text
  else it.text.get_stripped

/-- Corresponds to `Item::get_text_struct`: the derived representation,
only when one was built. -/
def Item.get_text_struct (it : Item) : Option AnsiString :=
  if !it.using_transform_fields && !it.ansi_enabled then none
  else some it.text

/-- Corresponds to `Item::get_output_text` (`ext.parse_ansi` stands for the
fresh default `ANSIParser` the method builds in its first branch): the text
emitted when the user accepts the item. -/
def Item.get_output_text (it : Item) (ext : Collab) : String :=
  if it.using_transform_fields && it.ansi_enabled then
    (ext.parse_ansi it.orig_text).into_inner
  else if !it.using_transform_fields && it.ansi_enabled then
    it.text.get_stripped
  else
    it.orig_text

/-- Corresponds to `Item::new`.  The four-way branch on
(`using_transform_fields`, `ansi_enabled`) selects the derived text, the
item is then built with empty matching ranges, and the matching ranges are
resolved against `get_text()` (defaulting to one whole-text range when no
matching fields are given; `String.utf8ByteSize` is Rust's `str::len`,
a byte count). -/
def Item.new (ext : Collab) (orig_text : String) (ansi_enabled : Bool)
    (trans_fields : List FieldRange) (matching_fields : List FieldRange)
    (delimiter : Regex) (index : Nat × Nat) : Item :=
  let using_transform_fields := !trans_fields.isEmpty
  let text :=
    if using_transform_fields && ansi_enabled then
      ext.parse_ansi (ext.parse_transform_fields delimiter orig_text trans_fields)
    else if using_transform_fields then
      AnsiString.new_string (ext.parse_transform_fields delimiter orig_text trans_fields)
    else if ansi_enabled then
      ext.parse_ansi orig_text
    else
      AnsiString.new_empty
  let ret : Item :=
    { index := index
      orig_text := orig_text
      text := text
      using_transform_fields := !trans_fields.isEmpty
      matching_ranges := []
      ansi_enabled := ansi_enabled }
  let matching_ranges :=
    if !matching_fields.isEmpty then
      ext.parse_matching_fields delimiter ret.get_text matching_fields
    else
      [(0, ret.get_text.utf8ByteSize)]
  { ret with matching_ranges := matching_ranges }

/-- Corresponds to `Item::get_index`. -/
def Item.get_index (it : Item) : Nat := it.index.2

/-- Corresponds to `Item::get_full_index`. -/
def Item.get_full_index (it : Item) : Nat × Nat := it.index

/-- Corresponds to `Item::get_matching_ranges`. -/
def Item.get_matching_ranges (it : Item) : List (Nat × Nat) :=
  it.matching_ranges

/-- Corresponds to `impl Clone for Item`: a fully independent copy, field
by field. -/
def Item.clone (it : Item) : Item :=
  { index := it.index
    orig_text := it.orig_text
    text := it.text
    using_transform_fields := it.using_transform_fields
    matching_ranges := it.matching_ranges
    ansi_enabled := it.ansi_enabled }

/-- The `Rank` type alias: `[i64; 4]` — (score, index, start, end). -/
abbrev Rank := Int × Int × Int × Int

/-- The `MatchedRange` enum: a contiguous byte range or individual
matched character positions. -/
inductive MatchedRange where
  | byteRange : Nat → Nat → MatchedRange
  | chars : List Nat → MatchedRange
deriving DecidableEq, Repr

/-- The `MatchedItem` struct: a shared item, its rank, and an optional
matched-range annotation (`item` stands for the `Arc<Item>` handle). -/
structure MatchedItem where
  item : Item
  rank : Rank
  matched_range : Option MatchedRange
deriving Repr

/-- Corresponds to `MatchedItem::builder`: default zero rank, absent
matched range. -/
def MatchedItem.builder (item : Item) : MatchedItem :=
  { item := item, rank := (0, 0, 0, 0), matched_range := none }

/-- Corresponds to `MatchedItem::build` (identity). -/
def MatchedItem.build (m : MatchedItem) : MatchedItem := m

/-- Rust's `Ord::cmp` on `i64`: `Less` when smaller, `Equal` when equal,
`Greater` otherwise. -/
def cmpInt (a b : Int) : Ordering :=
  if a < b then .lt else if a = b then .eq else .gt

/-- The derived lexicographic `Ord::cmp` on `[i64; 4]`: compare slot by
slot, the first non-equal slot decides. -/
def rankCmp (r s : Rank) : Ordering :=
  match cmpInt r.1 s.1 with
  | .lt => .lt
  | .gt => .gt
  | .eq =>
    match cmpInt r.2.1 s.2.1 with
    | .lt => .lt
    | .gt => .gt
    | .eq =>
      match cmpInt r.2.2.1 s.2.2.1 with
      | .lt => .lt
      | .gt => .gt
      | .eq => cmpInt r.2.2.2 s.2.2.2

/-- Corresponds to `impl Ord for MatchedItem`: `self.rank.cmp(&other.rank)`. -/
def MatchedItem.cmp (a b : MatchedItem) : Ordering :=
  rankCmp a.rank b.rank

/-- Corresponds to `impl PartialOrd for MatchedItem`: `Some(self.cmp(other))`. -/
def MatchedItem.partial_cmp (a b : MatchedItem) : Option Ordering :=
  some (a.cmp b)

/-- Corresponds to `impl PartialEq for MatchedItem`:
`self.rank == other.rank` (structural equality of the arrays). -/
def MatchedItem.eq (a b : MatchedItem) : Bool :=
  decide (a.rank = b.rank)

/-- The `ItemPool` struct at a quiescent point: its stored sequence of
shared item handles and the consumption cursor `taken`.  `α` stands for
`Arc<Item>`: the pool never inspects the items it stores.  The spinlock
serializes `append`/`take`/`len`/`clear`/`reset`, so those are modelled
as state transformers on this state. -/
structure ItemPool (α : Type) where
  pool : List α
  taken : Nat
deriving Repr

/-- Corresponds to `ItemPool::new`: empty storage, zero cursor (the
initial capacity of 1024 is an allocation detail with no observable
effect). -/
def ItemPool.new {α : Type} : ItemPool α :=
  { pool := [], taken := 0 }

/-- Corresponds to `ItemPool::len`: the stored item count. -/
def ItemPool.len {α : Type} (p : ItemPool α) : Nat :=
  p.pool.length

/-- Corresponds to `ItemPool::clear`: empty the storage and zero the
cursor. -/
def ItemPool.clear {α : Type} (_p : ItemPool α) : ItemPool α :=
  { pool := [], taken := 0 }

/-- Corresponds to `ItemPool::reset`: zero the cursor only (the lock it
takes is a serialization barrier with no state effect at a quiescent
point). -/
def ItemPool.reset {α : Type} (p : ItemPool α) : ItemPool α :=
  { p with taken := 0 }

/-- Corresponds to `ItemPool::append`: move the given items onto the end
of storage (the source vector is drained on the Rust side; here the
appended batch is passed by value). -/
def ItemPool.append {α : Type} (p : ItemPool α) (items : List α) : ItemPool α :=
  { p with pool := p.pool ++ items }

/-- Corresponds to `ItemPool::take`: read `len`, swap the cursor to `len`,
and return clones of the handles in the slice `pool[taken..len]`.  With
`len` the full length, that slice is `List.drop taken` (the Rust slice
additionally requires `taken ≤ len`, which is the pool invariant proved
below). -/
def ItemPool.take {α : Type} (p : ItemPool α) : List α × ItemPool α :=
  let len := p.pool.length
  let taken := p.taken
  (p.pool.drop taken, { p with taken := len })

/-- The pool invariant: the cursor never exceeds the stored length. -/
def PoolInv {α : Type} (p : ItemPool α) : Prop :=
  p.taken ≤ p.len

/-- One serialized call on an `ItemPool` (the operations of its public
interface; `len` is read-only). -/
inductive PoolCmd (α : Type) where
  | append : List α → PoolCmd α
  | take : PoolCmd α
  | len : PoolCmd α
  | clear : PoolCmd α
  | reset : PoolCmd α

/-- Whether a command is one of the producer/consumer pair `append`/`take`. -/
def PoolCmd.isAppendOrTake {α : Type} : PoolCmd α → Bool
  | .append _ => true
  | .take => true
  | _ => false

/-- The batch a command appends (empty for every other command). -/
def PoolCmd.appended {α : Type} : PoolCmd α → List α
  | .append xs => xs
  | _ => []

/-- All items appended over a serialized sequence of calls, in order. -/
def appendedOf {α : Type} (cs : List (PoolCmd α)) : List α :=
  (cs.map PoolCmd.appended).flatten

/-- Run a serialized sequence of calls on a pool, returning the final
quiescent state and the collection returned by each `take`, in call
order. -/
def runCmds {α : Type} : List (PoolCmd α) → ItemPool α → ItemPool α × List (List α)
  | [], p => (p, [])
  | .append xs :: cs, p => runCmds cs (p.append xs)
  | .take :: cs, p =>
    let r := p.take
    let rest := runCmds cs r.2
    (rest.1, r.1 :: rest.2)
  | .len :: cs, p => runCmds cs p
  | .clear :: cs, p => runCmds cs p.clear
  | .reset :: cs, p => runCmds cs p.reset

/-- The strict lexicographic order on `Rank` that `rankCmp` decides: the
first strictly smaller slot after a run of equal slots. -/
def rankLt (r s : Rank) : Prop :=
  r.1 < s.1 ∨ (r.1 = s.1 ∧ (r.2.1 < s.2.1 ∨ (r.2.1 = s.2.1 ∧
    (r.2.2.1 < s.2.2.1 ∨ (r.2.2.1 = s.2.2.1 ∧ r.2.2.2 < s.2.2.2)))))

/-- A concrete collaborator for evaluating the definitions on closed
inputs: the ANSI interpreter keeps the line, the transform parser returns
the line, the matching parser returns one range. -/
def collabId : Collab :=
  { parse_ansi := fun s => ⟨s⟩
    parse_transform_fields := fun _ s _ => s
    parse_matching_fields := fun _ _ _ => [(0, 1)] }

/-- A concrete collaborator whose matching-field parser resolves no field
at all (e.g. every requested field is beyond the last delimiter), so it
returns an empty list of ranges — allowed by the collaborator contract. -/
def collabNoMatch : Collab :=
  { parse_ansi := fun s => ⟨s⟩
    parse_transform_fields := fun _ s _ => s
    parse_matching_fields := fun _ _ _ => [] }

/-- A concrete item used to evaluate `MatchedItem` comparisons. -/
def itemA : Item :=
  Item.new collabId "alpha" false [] [] ⟨","⟩ (0, 0)

/-- A second concrete item, different from `itemA` in text, flags and
provenance. -/
def itemB : Item :=
  Item.new collabId "beta" true [] [] ⟨","⟩ (0, 1)

/-- Rust's `i64` comparison returns `Less` on a strictly smaller left
operand. -/
theorem cmpInt_lt {a b : Int} (h : a < b) : cmpInt a b = Ordering.lt := by
  simp [cmpInt, h]

/-- Rust's `i64` comparison returns `Equal` exactly on equal operands. -/
theorem cmpInt_eq {a b : Int} (h : a = b) : cmpInt a b = Ordering.eq := by
  subst h; simp [cmpInt]

/-- Rust's `i64` comparison returns `Greater` on a strictly greater left
operand. -/
theorem cmpInt_gt {a b : Int} (h : b < a) : cmpInt a b = Ordering.gt := by
  have h1 : ¬a < b := by omega
  have h2 : a ≠ b := by omega
  simp [cmpInt, h1, h2]

/-- Characterization of the derived array comparison: `rankCmp` returns
`lt`/`eq`/`gt` exactly on the lexicographic order and on tuple equality. -/
theorem rankCmp_cases (r s : Rank) :
    (rankCmp r s = Ordering.lt ↔ rankLt r s) ∧
    (rankCmp r s = Ordering.eq ↔ r = s) ∧
    (rankCmp r s = Ordering.gt ↔ rankLt s r) := by
  obtain ⟨r1, r2, r3, r4⟩ := r
  obtain ⟨s1, s2, s3, s4⟩ := s
  simp only [rankCmp, rankLt, Prod.mk.injEq]
  rcases lt_trichotomy r1 s1 with h1 | h1 | h1
  · rw [cmpInt_lt h1]
    refine ⟨?_, ?_, ?_⟩ <;> simp <;> omega
  · rw [cmpInt_eq h1]
    rcases lt_trichotomy r2 s2 with h2 | h2 | h2
    · rw [cmpInt_lt h2]
      refine ⟨?_, ?_, ?_⟩ <;> simp <;> omega
    · rw [cmpInt_eq h2]
      rcases lt_trichotomy r3 s3 with h3 | h3 | h3
      · rw [cmpInt_lt h3]
        refine ⟨?_, ?_, ?_⟩ <;> simp <;> omega
      · rw [cmpInt_eq h3]
        rcases lt_trichotomy r4 s4 with h4 | h4 | h4
        · rw [cmpInt_lt h4]
          refine ⟨?_, ?_, ?_⟩ <;> simp <;> omega
        · rw [cmpInt_eq h4]
          refine ⟨?_, ?_, ?_⟩ <;> simp <;> omega
        · rw [cmpInt_gt h4]
          refine ⟨?_, ?_, ?_⟩ <;> simp <;> omega
      · rw [cmpInt_gt h3]
        refine ⟨?_, ?_, ?_⟩ <;> simp <;> omega
    · rw [cmpInt_gt h2]
      refine ⟨?_, ?_, ?_⟩ <;> simp <;> omega
  · rw [cmpInt_gt h1]
    refine ⟨?_, ?_, ?_⟩ <;> simp <;> omega

/-- The lexicographic order on ranks is transitive. -/
theorem rankLt_trans {r s t : Rank} (h1 : rankLt r s) (h2 : rankLt s t) :
    rankLt r t := by
  obtain ⟨r1, r2, r3, r4⟩ := r
  obtain ⟨s1, s2, s3, s4⟩ := s
  obtain ⟨t1, t2, t3, t4⟩ := t
  simp only [rankLt] at h1 h2 ⊢
  omega

/-- Running a concatenation of call sequences runs them in succession and
concatenates the `take` outputs. -/
theorem runCmds_append {α : Type} (cs ds : List (PoolCmd α)) (p : ItemPool α) :
    runCmds (cs ++ ds) p =
      ((runCmds ds (runCmds cs p).1).1,
        (runCmds cs p).2 ++ (runCmds ds (runCmds cs p).1).2) := by
  induction cs generalizing p with
  | nil => simp [runCmds]
  | cons c cs ih => cases c <;> simp [runCmds, ih]

/-- Trace invariant of a serialized producer/consumer run: over a sequence
of `append`/`take` calls, storage grows by exactly the appended batches in
order, the cursor only advances and stays within bounds, and the
concatenation of all `take` outputs is exactly the stored prefix strictly
between the starting cursor and the final cursor. -/
theorem runCmds_appendTake_spec {α : Type} (cs : List (PoolCmd α)) (p : ItemPool α)
    (hp : p.taken ≤ p.pool.length)
    (hc : ∀ c ∈ cs, c.isAppendOrTake = true) :
    (runCmds cs p).1.pool = p.pool ++ appendedOf cs ∧
    p.taken ≤ (runCmds cs p).1.taken ∧
    (runCmds cs p).1.taken ≤ (runCmds cs p).1.pool.length ∧
    (runCmds cs p).2.flatten =
      ((runCmds cs p).1.pool.take (runCmds cs p).1.taken).drop p.taken := by
  induction cs generalizing p with
  | nil =>
    refine ⟨by simp [runCmds, appendedOf], le_refl _, hp, ?_⟩
    have hlen : (p.pool.take p.taken).length ≤ p.taken := by
      simp [List.length_take]
    simp [runCmds, List.drop_eq_nil_of_le hlen]
  | cons c cs ih =>
    cases c with
    | append xs =>
      have hc' : ∀ c ∈ cs, PoolCmd.isAppendOrTake c = true := fun c hm => hc c (by simp [hm])
      have hp' : (p.append xs).taken ≤ (p.append xs).pool.length := by
        simp [ItemPool.append]; omega
      obtain ⟨h1, h2, h3, h4⟩ := ih (p.append xs) hp' hc'
      refine ⟨?_, h2, h3, h4⟩
      simp only [runCmds] at h1 ⊢
      rw [h1]
      simp [ItemPool.append, appendedOf, PoolCmd.appended]
    | take =>
      have hc' : ∀ c ∈ cs, PoolCmd.isAppendOrTake c = true := fun c hm => hc c (by simp [hm])
      have hp' : (p.take).2.taken ≤ (p.take).2.pool.length := by
        simp [ItemPool.take]
      obtain ⟨h1, h2, h3, h4⟩ := ih (p.take).2 hp' hc'
      have hpool : (p.take).2.pool = p.pool := rfl
      have htaken : (p.take).2.taken = p.pool.length := rfl
      rw [hpool] at h1
      rw [htaken] at h2 h4
      refine ⟨?_, ?_, ?_, ?_⟩
      · simpa [runCmds, appendedOf, PoolCmd.appended] using h1
      · show p.taken ≤ (runCmds cs (p.take).2).1.taken
        omega
      · exact h3
      · show ((p.take).1 :: (runCmds cs (p.take).2).2).flatten =
          ((runCmds cs (p.take).2).1.pool.take (runCmds cs (p.take).2).1.taken).drop p.taken
        set q := (runCmds cs (p.take).2).1 with hq
        set outs := (runCmds cs (p.take).2).2 with houts
        have hfirst : (p.take).1 = p.pool.drop p.taken := rfl
        rw [List.flatten_cons, hfirst, h4]
        have hL : q.pool.take q.taken = p.pool ++ (appendedOf cs).take (q.taken - p.pool.length) := by
          rw [h1, List.take_append_eq_append_take, List.take_of_length_le (by omega)]
        rw [hL, List.drop_append_eq_append_drop, List.drop_append_eq_append_drop]
        have e1 : p.taken - p.pool.length = 0 := by omega
        have e2 : p.pool.drop p.pool.length = [] := List.drop_eq_nil_of_le (le_refl _)
        simp [e1, e2]
    | len =>
      have h := hc PoolCmd.len (List.mem_cons_self _ _)
      simp [PoolCmd.isAppendOrTake] at h
    | clear =>
      have h := hc PoolCmd.clear (List.mem_cons_self _ _)
      simp [PoolCmd.isAppendOrTake] at h
    | reset =>
      have h := hc PoolCmd.reset (List.mem_cons_self _ _)
      simp [PoolCmd.isAppendOrTake] at h

/-- Claim C2: `get_output_text()` follows the output column of the
derivation matrix — with transform and ANSI both active it is the ANSI
re-parse of the original full line, with only ANSI active it is the
stripped derived text, otherwise the original line verbatim; and for an
item with transform fields but ANSI disabled, `get_text()` is the
transform-selected substring while `get_output_text()` is the original,
untransformed line. -/
theorem claim_C2_output_matrix (ext : Collab) (orig : String) (d : Regex) (idx : Nat × Nat) :
    (∀ (ansi : Bool) (tf mf : List FieldRange),
      (Item.new ext orig ansi tf mf d idx).get_output_text ext =
        if !tf.isEmpty && ansi then (ext.parse_ansi orig).into_inner
        else if ansi then (ext.parse_ansi orig).get_stripped
        else orig) ∧
    (∀ (f : FieldRange) (tfs mf : List FieldRange),
      (Item.new ext orig false (f :: tfs) mf d idx).get_text =
        ext.parse_transform_fields d orig (f :: tfs) ∧
      (Item.new ext orig false (f :: tfs) mf d idx).get_output_text ext = orig) := by
  constructor
  · intro ansi tf mf
    cases tf <;> cases ansi <;>
      simp [Item.new, Item.get_output_text, AnsiString.get_stripped, AnsiString.into_inner]
  · intro f tfs mf
    constructor <;>
      simp [Item.new, Item.get_text, Item.get_output_text, AnsiString.new_string,
        AnsiString.get_stripped]

/-- Claim C4: `reset()` zeroes the cursor and leaves storage untouched, so
an immediately following `take()` returns every stored item, in storage
order, including items delivered before the reset. -/
theorem claim_C4_reset_frame {α : Type} (p : ItemPool α) :
    p.reset.pool = p.pool ∧ p.reset.taken = 0 ∧
    ((p.reset).take).1 = p.pool ∧ ((p.reset).take).2.pool = p.pool ∧
    ((p.reset).take).2.taken = p.len := by
  refine ⟨rfl, rfl, ?_, rfl, rfl⟩
  show p.pool.drop 0 = p.pool
  exact List.drop_zero p.pool

/-- Claim C6: `append(items)` puts the given items at the end of storage
in arrival order, keeps the existing stored prefix unchanged, and leaves
the consumption cursor unmodified. -/
theorem claim_C6_append_frame {α : Type} (p : ItemPool α) (xs : List α) :
    (p.append xs).pool = p.pool ++ xs ∧ (p.append xs).taken = p.taken :=
  ⟨rfl, rfl⟩

/-- Claim C7: an item constructed with an empty matching-field
specification has exactly one matching range, spanning the whole canonical
matchable text: `(0, len(get_text()))`. -/
theorem claim_C7_default_matching_range (ext : Collab) (orig : String) (ansi : Bool)
    (tf : List FieldRange) (d : Regex) (idx : Nat × Nat) :
    (Item.new ext orig ansi tf [] d idx).matching_ranges =
      [(0, (Item.new ext orig ansi tf [] d idx).get_text.utf8ByteSize)] := by
  rfl

/-- Claim C8: an item constructed with an empty transform field-set and
ANSI disabled has `get_text()` equal to the original line and
`get_text_struct()` reporting absence. -/
theorem claim_C8_plain_item (ext : Collab) (orig : String) (mf : List FieldRange)
    (d : Regex) (idx : Nat × Nat) :
    (Item.new ext orig false [] mf d idx).get_text = orig ∧
    (Item.new ext orig false [] mf d idx).get_text_struct = none :=
  ⟨rfl, rfl⟩

/-- Claim C9 (counterexample to the claim as stated): with a matching-field
parser that resolves no field — allowed by the collaborator contract, which
only promises a list of byte ranges — an item built with a non-empty
matching-field specification stores an empty `matching_ranges`. -/
theorem claim_C9_counterexample :
    (Item.new collabNoMatch "ab" false [] [FieldRange.mk] ⟨","⟩ (0, 0)).matching_ranges = [] :=
  rfl

/-- Claim C9 (amended): an item built with an empty matching-field
specification stores exactly one range (the whole-text default); with a
non-empty specification it stores verbatim whatever list the field parser
returns — which may be empty, so `matching_ranges` is only guaranteed
non-empty in the default case. -/
theorem claim_C9_matching_ranges (ext : Collab) (orig : String) (ansi : Bool)
    (tf : List FieldRange) (d : Regex) (idx : Nat × Nat) :
    ((Item.new ext orig ansi tf [] d idx).matching_ranges.length = 1) ∧
    (∀ (f : FieldRange) (mfs : List FieldRange),
      (Item.new ext orig ansi tf (f :: mfs) d idx).matching_ranges =
        ext.parse_matching_fields d (Item.new ext orig ansi tf (f :: mfs) d idx).get_text
          (f :: mfs)) := by
  exact ⟨rfl, fun f mfs => rfl⟩

/-- Claim C1: `take()` returns exactly the items at positions
`[old_cursor, len)` in storage order and moves the cursor to `len`; in any
serialized sequence of appends and takes ending in a `take`, the
concatenation of all take results is exactly the concatenation of all
appended batches, in arrival order — each appended item is delivered by
exactly one `take()`; and on the concrete scenario, appending 3 items then
taking yields those 3, an immediate second take yields nothing, and after
appending 2 more a take yields only those 2. -/
theorem claim_C1_take_semantics (α : Type) :
    (∀ p : ItemPool α, (p.take).2.pool = p.pool ∧ (p.take).2.taken = p.len ∧
      (p.take).1.length = p.len - p.taken ∧
      ∀ i : Nat, (p.take).1[i]? = p.pool[p.taken + i]?) ∧
    (∀ cs : List (PoolCmd α), (∀ c ∈ cs, c.isAppendOrTake = true) →
      (runCmds (cs ++ [PoolCmd.take]) (ItemPool.new : ItemPool α)).2.flatten =
        appendedOf cs) ∧
    ((((ItemPool.new : ItemPool Nat).append [1, 2, 3]).take).1 = [1, 2, 3] ∧
      ((((ItemPool.new : ItemPool Nat).append [1, 2, 3]).take).2.take).1 = [] ∧
      (((((ItemPool.new : ItemPool Nat).append [1, 2, 3]).take).2.append [4, 5]).take).1 =
        [4, 5]) := by
  refine ⟨?_, ?_, by decide⟩
  · intro p
    refine ⟨rfl, rfl, List.length_drop _ _, fun i => List.getElem?_drop p.pool p.taken i⟩
  · intro cs hc
    obtain ⟨h1, h2, h3, h4⟩ :=
      runCmds_appendTake_spec cs (ItemPool.new : ItemPool α) (Nat.le_refl 0) hc
    rw [runCmds_append]
    simp only [runCmds, List.flatten_append, List.flatten_cons, List.flatten_nil,
      List.append_nil]
    have hdrop0 : (runCmds cs (ItemPool.new : ItemPool α)).2.flatten =
        ((runCmds cs (ItemPool.new : ItemPool α)).1.pool.take
          (runCmds cs (ItemPool.new : ItemPool α)).1.taken) := by
      rw [h4]; rfl
    rw [hdrop0]
    show _ ++ (runCmds cs (ItemPool.new : ItemPool α)).1.pool.drop
        (runCmds cs (ItemPool.new : ItemPool α)).1.taken = _
    rw [List.take_append_drop]
    simpa using h1

/-- Witness for claim C1: the serialized-trace part applied to the
concrete sequence append [1,2,3]; take; append [4,5] with a final take. -/
theorem claim_C1_witness :
    (runCmds ([PoolCmd.append [1, 2, 3], PoolCmd.take, PoolCmd.append [4, 5]] ++
        [PoolCmd.take]) (ItemPool.new : ItemPool Nat)).2.flatten =
      appendedOf [PoolCmd.append [1, 2, 3], PoolCmd.take, PoolCmd.append [4, 5]] :=
  (claim_C1_take_semantics Nat).2.1 _ (by decide)

/-- Claim C3: `MatchedItem` comparison is exactly the derived
lexicographic comparison of the 4-slot rank tuples and equality is exact
tuple equality (the item and `matched_range` play no role); a greater
first slot wins regardless of the rest, equal slots fall through to the
next slot, and the comparison is a strict total order: `Equal` exactly on
equal tuples, `Less` exactly opposite `Greater`, and transitive. -/
theorem claim_C3_rank_order :
    (∀ a b : MatchedItem, MatchedItem.cmp a b = rankCmp a.rank b.rank) ∧
    (∀ a b : MatchedItem, MatchedItem.eq a b = true ↔ a.rank = b.rank) ∧
    (∀ r1 r2 r3 r4 s1 s2 s3 s4 : Int, s1 < r1 →
      rankCmp (r1, r2, r3, r4) (s1, s2, s3, s4) = Ordering.gt) ∧
    (∀ a r2 r3 r4 s2 s3 s4 : Int, s2 < r2 →
      rankCmp (a, r2, r3, r4) (a, s2, s3, s4) = Ordering.gt) ∧
    (∀ a b r3 r4 s3 s4 : Int, s3 < r3 →
      rankCmp (a, b, r3, r4) (a, b, s3, s4) = Ordering.gt) ∧
    (∀ a b c r4 s4 : Int,
      rankCmp (a, b, c, r4) (a, b, c, s4) = cmpInt r4 s4) ∧
    (∀ r s : Rank, rankCmp r s = Ordering.eq ↔ r = s) ∧
    (∀ r s : Rank, rankCmp r s = Ordering.lt ↔ rankCmp s r = Ordering.gt) ∧
    (∀ r s t : Rank, rankCmp r s = Ordering.lt → rankCmp s t = Ordering.lt →
      rankCmp r t = Ordering.lt) ∧
    rankCmp (5, 0, 0, 0) (3, 9, 9, 9) = Ordering.gt := by
  refine ⟨fun a b => rfl, ?_, ?_, ?_, ?_, ?_, ?_, ?_, ?_, by decide⟩
  · intro a b
    simp [MatchedItem.eq]
  · intro r1 r2 r3 r4 s1 s2 s3 s4 h
    exact (rankCmp_cases _ _).2.2.mpr (Or.inl h)
  · intro a r2 r3 r4 s2 s3 s4 h
    exact (rankCmp_cases _ _).2.2.mpr (Or.inr ⟨rfl, Or.inl h⟩)
  · intro a b r3 r4 s3 s4 h
    exact (rankCmp_cases _ _).2.2.mpr (Or.inr ⟨rfl, Or.inr ⟨rfl, Or.inl h⟩⟩)
  · intro a b c r4 s4
    rcases lt_trichotomy r4 s4 with h | h | h
    · rw [cmpInt_lt h]
      exact (rankCmp_cases _ _).1.mpr (Or.inr ⟨rfl, Or.inr ⟨rfl, Or.inr ⟨rfl, h⟩⟩⟩)
    · subst h
      rw [cmpInt_eq rfl]
      exact (rankCmp_cases _ _).2.1.mpr rfl
    · rw [cmpInt_gt h]
      exact (rankCmp_cases _ _).2.2.mpr (Or.inr ⟨rfl, Or.inr ⟨rfl, Or.inr ⟨rfl, h⟩⟩⟩)
  · intro r s
    exact (rankCmp_cases r s).2.1
  · intro r s
    constructor
    · intro h
      exact (rankCmp_cases s r).2.2.mpr ((rankCmp_cases r s).1.mp h)
    · intro h
      exact (rankCmp_cases r s).1.mpr ((rankCmp_cases s r).2.2.mp h)
  · intro r s t h1 h2
    exact (rankCmp_cases r t).1.mpr
      (rankLt_trans ((rankCmp_cases r s).1.mp h1) ((rankCmp_cases s t).1.mp h2))

/-- Witness for claim C3: the slot-dominance and transitivity parts
applied at concrete ranks. -/
theorem claim_C3_witness :
    rankCmp ((7 : Int), 0, 0, 0) ((2 : Int), 5, 5, 5) = Ordering.gt ∧
    rankCmp ((2 : Int), 3, 0, 0) ((2 : Int), 1, 9, 9) = Ordering.gt ∧
    rankCmp ((1 : Int), 1, 1, 1) ((1 : Int), 1, 1, 3) = Ordering.lt := by
  refine ⟨?_, ?_, ?_⟩
  · exact claim_C3_rank_order.2.2.1 7 0 0 0 2 5 5 5 (by decide)
  · exact claim_C3_rank_order.2.2.2.1 2 3 0 0 1 9 9 (by decide)
  · exact claim_C3_rank_order.2.2.2.2.2.2.2.2.1 ((1 : Int), 1, 1, 1) ((1 : Int), 1, 1, 2)
      ((1 : Int), 1, 1, 3) (by decide) (by decide)

/-- Claim C5: the invariant `taken ≤ len()` holds of a new pool, is
preserved by `append`, `take`, `clear` and `reset` (and trivially by the
read-only `len`), and therefore holds after any serialized sequence of
these operations. -/
theorem claim_C5_cursor_invariant (α : Type) :
    PoolInv (ItemPool.new : ItemPool α) ∧
    (∀ (p : ItemPool α) (xs : List α), PoolInv p → PoolInv (p.append xs)) ∧
    (∀ p : ItemPool α, PoolInv (p.take).2) ∧
    (∀ p : ItemPool α, PoolInv p.clear) ∧
    (∀ p : ItemPool α, PoolInv p.reset) ∧
    (∀ (p : ItemPool α) (cs : List (PoolCmd α)), PoolInv p → PoolInv (runCmds cs p).1) := by
  have hnew : PoolInv (ItemPool.new : ItemPool α) := Nat.le_refl 0
  have happ : ∀ (p : ItemPool α) (xs : List α), PoolInv p → PoolInv (p.append xs) := by
    intro p xs h
    simp only [PoolInv, ItemPool.append, ItemPool.len, List.length_append] at h ⊢
    omega
  have htake : ∀ p : ItemPool α, PoolInv (p.take).2 := fun p => Nat.le_refl _
  have hclear : ∀ p : ItemPool α, PoolInv p.clear := fun p => Nat.le_refl 0
  have hreset : ∀ p : ItemPool α, PoolInv p.reset := fun p => Nat.zero_le _
  refine ⟨hnew, happ, htake, hclear, hreset, ?_⟩
  intro p cs
  induction cs generalizing p with
  | nil => exact id
  | cons c cs ih =>
    intro h
    cases c with
    | append xs => exact ih _ (happ p xs h)
    | take => exact ih _ (htake p)
    | len => exact ih _ h
    | clear => exact ih _ (hclear p)
    | reset => exact ih _ (hreset p)

/-- Witness for claim C5: invariant preservation applied to a concrete
pool with two stored items and cursor one, and to a concrete run. -/
theorem claim_C5_witness :
    PoolInv ((⟨[10, 20], 1⟩ : ItemPool Nat).append [30]) ∧
    PoolInv (runCmds [PoolCmd.take, PoolCmd.append [9]]
      (⟨[10, 20], 1⟩ : ItemPool Nat)).1 := by
  have hp : PoolInv (⟨[10, 20], 1⟩ : ItemPool Nat) := by
    show 1 ≤ ([10, 20] : List Nat).length
    decide
  exact ⟨(claim_C5_cursor_invariant Nat).2.1 _ [30] hp,
    (claim_C5_cursor_invariant Nat).2.2.2.2.2 _ _ hp⟩

/-- Claim C10: `MatchedItem` equality and comparison depend on the rank
alone — equal rank tuples give `eq` true and `cmp` `Equal` whatever the
items and matched ranges are, and replacing the item or the matched range
of a value never changes how it compares, on either side. -/
theorem claim_C10_rank_only :
    (∀ a b : MatchedItem, a.rank = b.rank →
      MatchedItem.eq a b = true ∧ MatchedItem.cmp a b = Ordering.eq) ∧
    (∀ (a b : MatchedItem) (it : Item) (mr : Option MatchedRange),
      MatchedItem.cmp { a with item := it, matched_range := mr } b = MatchedItem.cmp a b ∧
      MatchedItem.cmp b { a with item := it, matched_range := mr } = MatchedItem.cmp b a ∧
      MatchedItem.eq { a with item := it, matched_range := mr } b = MatchedItem.eq a b ∧
      MatchedItem.eq b { a with item := it, matched_range := mr } = MatchedItem.eq b a) := by
  constructor
  · intro a b h
    refine ⟨by simp [MatchedItem.eq, h], ?_⟩
    exact (rankCmp_cases a.rank b.rank).2.1.mpr h
  · intro a b it mr
    exact ⟨rfl, rfl, rfl, rfl⟩

/-- Witness for claim C10: two matched items with different underlying
items and different matched-range annotations but equal ranks compare
equal. -/
theorem claim_C10_witness :
    MatchedItem.eq ⟨itemA, ((1 : Int), 2, 3, 4), none⟩
      ⟨itemB, ((1 : Int), 2, 3, 4), some (MatchedRange.byteRange 0 2)⟩ = true ∧
    MatchedItem.cmp ⟨itemA, ((1 : Int), 2, 3, 4), none⟩
      ⟨itemB, ((1 : Int), 2, 3, 4), some (MatchedRange.byteRange 0 2)⟩ = Ordering.eq :=
  claim_C10_rank_only.1 _ _ (by decide)
